import Mathlib

/-!
Verification of the `wit` address-matching notebook
(`src/wit/notebooks/address-matching.ipynb`).

The notebook's own code (the `compare` function, the three literal test
pairs, the triplet-loss formula stated in its markdown) is embedded
directly.  The helpers it imports from the `wit` package
(`KerasFormatter`, `make_triplet_train`, `TripletClassifier`) and the
`fuzzywuzzy` library are not part of the sources, so they are modelled
from the specification, as noted on each definition.
-/

namespace Wit

/-- Maximum input-string length used by the notebook (`max_len = 350`). -/
def max_len : Nat := 350

/-- Index of a character in the formatter's vocabulary.  Index `0` is
reserved for padding, so real characters map to a nonzero index. -/
def charIndex (c : Char) : Nat := c.toNat + 1

/-- Modelled from the spec: `KerasFormatter` (not under `src/`).  Given a
string and a maximum length, produce a fixed-length index sequence where
each position encodes one character; strings exceeding the maximum are
truncated from the end, shorter ones are zero-padded.  No normalization
(case folding, punctuation stripping) is performed. -/
def formatChars (s : List Char) (L : Nat) : List Nat :=
  (s.map charIndex).take L ++ List.replicate (L - s.length) 0

/-- The notebook's `formatter._format_x` applied to a single string. -/
def format_x (s : String) (L : Nat) : List Nat :=
  formatChars s.toList L

/-- Substitution cost of the indel-style Levenshtein distance underlying
`fuzz.ratio`: substituting is as expensive as one deletion plus one
insertion. -/
def subCost (a b : Char) : Nat := if a = b then 0 else 2

/-- Modelled from the spec: the Levenshtein edit distance underlying the
reference comparator (`fuzzywuzzy.fuzz.ratio`, not under `src/`), with
unit insertion/deletion cost and substitution cost `subCost`. -/
def editDist2 : List Char → List Char → Nat
  | [], ys => ys.length
  | x :: xs, [] => (x :: xs).length
  | x :: xs, y :: ys =>
      min (min (1 + editDist2 xs (y :: ys)) (1 + editDist2 (x :: xs) ys))
        (subCost x y + editDist2 xs ys)
termination_by xs ys => xs.length + ys.length

/-- Modelled from the spec: the reference comparator's normalized
edit-distance similarity score on a 0–100 scale (`fuzz.ratio`, not under
`src/`): `round (100 * (T - d) / T)` where `d` is the edit distance and
`T` the total length of the two strings (`100` for two empty strings). -/
def fuzz_sim (a b : String) : ℤ :=
  if a.toList.length + b.toList.length = 0 then 100
  else
    round ((100 * (((a.toList.length + b.toList.length : Nat) : ℚ) -
        (editDist2 a.toList b.toList : ℚ))) /
      ((a.toList.length + b.toList.length : Nat) : ℚ))

/-- Dot product of two vectors represented as lists. -/
def dot {α : Type} [Mul α] [AddCommMonoid α] (v w : List α) : α :=
  (List.zipWith (fun a b => a * b) v w).sum

/-- Cosine similarity: dot product divided by the product of the norms. -/
noncomputable def cosineSim (v w : List ℝ) : ℝ :=
  dot v w / (Real.sqrt (dot v v) * Real.sqrt (dot w w))

/-- Rounding to three decimal places (`np.round(x, 3)`). -/
noncomputable def round3 (x : ℝ) : ℝ := ((round (1000 * x) : ℤ) : ℝ) / 1000

/-- Embedding of a raw string: the encoder `F` (the trained model's
`predict`, a fixed pure function of its weights) applied to the formatted
character encoding of the string. -/
def emb (F : List Nat → List ℝ) (s : String) : List ℝ :=
  F (format_x s max_len)

/-- The notebook's `compare(a, b)`: the learned similarity score is the
rounded dot product of the two embedding rows
(`np.round(np.dot(pred, pred.T)[0, 1], 3)`), and the reference score is
`fuzz.ratio` on the raw pair. -/
noncomputable def compare (F : List Nat → List ℝ) (a b : String) : ℝ × ℤ :=
  (round3 (dot (emb F a) (emb F b)), fuzz_sim a b)

/-- The comparator as worded by the spec (section 4.4): report the
rounded cosine similarity of the two embeddings, together with the
reference edit-distance score. -/
noncomputable def compareSpec (F : List Nat → List ℝ) (a b : String) : ℝ × ℤ :=
  (round3 (cosineSim (emb F a) (emb F b)), fuzz_sim a b)

/-- The notebook's distance between embeddings:
`distance(x, y) = 1 - cosine_similarity(x, y)`. -/
noncomputable def embDist (x y : List ℝ) : ℝ := 1 - cosineSim x y

/-- Modelled from the spec: the per-triplet training objective of
`TripletClassifier` (not under `src/`), as stated in the notebook's
markdown: `max(0, distance(F(anchor), F(positive)) -
distance(F(anchor), F(negative)) + margin)` with one shared encoder `F`. -/
noncomputable def tripletLoss (F : List Nat → List ℝ) (margin : ℝ)
    (a p n : String) : ℝ :=
  max 0 (embDist (emb F a) (emb F p) - embDist (emb F a) (emb F n) + margin)

/-- An address record: the raw string plus its equivalence-group id
(the notebook's dataframe columns `obj` and `id`). -/
structure Row where
  obj : String
  id : Nat
deriving DecidableEq

/-- Default row used for out-of-range table lookups. -/
def defRow : Row := ⟨"", 0⟩

/-- A training triplet of address records. -/
structure Triplet where
  anc : Row
  pos : Row
  neg : Row
deriving DecidableEq

/-- All rows of the table other than the one at index `i`. -/
def othersOf (rows : List Row) (i : Nat) : List Row :=
  (rows.enum.filter (fun p => p.1 != i)).map (fun p => p.2)

/-- Modelled from the spec: the positive selected by `make_triplet_train`
(not under `src/`) for the anchor at index `i` — some other row sharing
the anchor's group id, `none` when no such record exists. -/
def positiveFor (rows : List Row) (i : Nat) : Option Row :=
  ((rows.enum.filter
      (fun p => p.1 != i && p.2.id == (rows.getD i defRow).id)).map
    (fun p => p.2)).head?

/-- Modelled from the spec: the `N` negatives selected by
`make_triplet_train` (not under `src/`) for the anchor at index `i` —
`N` draws from the other rows of the table (deterministic stand-in for
the random draw), with no group-distinctness check. -/
def negativesFor (rows : List Row) (i : Nat) (N : Nat) : List Row :=
  let o := othersOf rows i
  if o.length = 0 then []
  else (List.range N).map (fun k => o.getD (k % o.length) defRow)

/-- Triplets contributed by the anchor at index `i`: none when no
same-group partner exists, otherwise one triplet per negative. -/
def tripletsFor (rows : List Row) (N : Nat) (i : Nat) : List Triplet :=
  match positiveFor rows i with
  | none => []
  | some p => (negativesFor rows i N).map (fun n => ⟨rows.getD i defRow, p, n⟩)

/-- Modelled from the spec: `make_triplet_train` (not under `src/`): for
each row acting as anchor, pair it with a same-group positive (skipping
anchors with no same-group partner) and `N` negatives drawn from the
other rows. -/
def make_triplet_train (rows : List Row) (N : Nat) : List Triplet :=
  ((List.range rows.length).map (tripletsFor rows N)).flatten

/-! ### Edit-distance lemmas -/

theorem editDist2_nil_left (ys : List Char) : editDist2 [] ys = ys.length := by
  simp [editDist2]

theorem editDist2_nil_right (xs : List Char) : editDist2 xs [] = xs.length := by
  cases xs <;> simp [editDist2]

theorem editDist2_cons_cons (x y : Char) (xs ys : List Char) :
    editDist2 (x :: xs) (y :: ys) =
      min (min (1 + editDist2 xs (y :: ys)) (1 + editDist2 (x :: xs) ys))
        (subCost x y + editDist2 xs ys) := by
  simp [editDist2]

theorem subCost_comm (x y : Char) : subCost x y = subCost y x := by
  unfold subCost
  by_cases h : x = y <;> simp [h, Ne.symm, eq_comm]

/-- Deleting the head of the first string raises the distance by at most
one. -/
theorem editDist2_le_one_add_cons_left (c : Char) (xs ys : List Char) :
    editDist2 xs ys ≤ 1 + editDist2 (c :: xs) ys := by
  induction ys with
  | nil => simp [editDist2_nil_right]; omega
  | cons y ys ih =>
    rw [editDist2_cons_cons]
    have h1 : editDist2 xs (y :: ys) ≤ 1 + editDist2 xs ys := by
      cases xs with
      | nil => simp [editDist2_nil_left]; omega
      | cons x xs =>
        rw [editDist2_cons_cons]
        omega
    have h2 : 0 ≤ subCost c y := Nat.zero_le _
    omega

theorem editDist2_symm (xs ys : List Char) : editDist2 xs ys = editDist2 ys xs := by
  induction xs generalizing ys with
  | nil => simp [editDist2_nil_left, editDist2_nil_right]
  | cons x xs ih =>
    induction ys with
    | nil => simp [editDist2_nil_left, editDist2_nil_right]
    | cons y ys ih2 =>
      rw [editDist2_cons_cons, editDist2_cons_cons, ih (y :: ys), ← ih2,
        ih ys, subCost_comm]
      omega

theorem editDist2_le_one_add_cons_right (c : Char) (xs ys : List Char) :
    editDist2 xs ys ≤ 1 + editDist2 xs (c :: ys) := by
  rw [editDist2_symm xs ys, editDist2_symm xs (c :: ys)]
  exact editDist2_le_one_add_cons_left c ys xs

/-- Equal heads can be stripped without changing the distance. -/
theorem editDist2_cons_cons_same (c : Char) (xs ys : List Char) :
    editDist2 (c :: xs) (c :: ys) = editDist2 xs ys := by
  rw [editDist2_cons_cons]
  have hsub : subCost c c = 0 := by simp [subCost]
  have h1 := editDist2_le_one_add_cons_right c xs ys
  have h2 := editDist2_le_one_add_cons_left c xs ys
  omega

/-- The distance never exceeds the total length of the two strings. -/
theorem editDist2_le_length_add (xs ys : List Char) :
    editDist2 xs ys ≤ xs.length + ys.length := by
  induction xs generalizing ys with
  | nil => simp [editDist2_nil_left]
  | cons x xs ih =>
    cases ys with
    | nil => simp [editDist2_nil_right]
    | cons y ys =>
      rw [editDist2_cons_cons]
      have := ih (y :: ys)
      simp only [List.length_cons] at *
      omega

/-! ### The notebook's literal example -/

theorem editDist2_street_st :
    editDist2 "101 fake street".toList "101 fake st".toList = 4 := by
  have h1 : "101 fake street".toList =
      ['1', '0', '1', ' ', 'f', 'a', 'k', 'e', ' ', 's', 't',
        'r', 'e', 'e', 't'] := rfl
  have h2 : "101 fake st".toList =
      ['1', '0', '1', ' ', 'f', 'a', 'k', 'e', ' ', 's', 't'] := rfl
  rw [h1, h2]
  simp only [editDist2_cons_cons_same]
  rw [editDist2_nil_right]
  rfl

/-- **C1**: the reference comparator applied to the literal pair
`('101 fake street', '101 fake st')` returns an edit-distance similarity
score of exactly 85, independent of the learned model's weights. -/
theorem C1_ref_score_is_85 : fuzz_sim "101 fake street" "101 fake st" = 85 := by
  have hd := editDist2_street_st
  have hl1 : "101 fake street".toList.length = 15 := rfl
  have hl2 : "101 fake st".toList.length = 11 := rfl
  simp only [fuzz_sim, hd, hl1, hl2]
  norm_num
  rw [round_eq]
  norm_num [Int.floor_eq_iff]

/-! ### Character formatter -/

theorem charIndex_ne_zero (c : Char) : charIndex c ≠ 0 := by
  simp [charIndex]

/-- **C4**: for every string `s` and fixed maximum length `L`, the
character formatter produces a fixed-shape encoding (length exactly `L`)
with exactly `min (len s) L` non-padding positions: strings longer than
`L` are truncated from the end, shorter ones are zero-padded. -/
theorem C4_format_shape (s : List Char) (L : Nat) :
    (formatChars s L).length = L ∧
    (formatChars s L).countP (fun x => x != 0) = min s.length L := by
  constructor
  · simp [formatChars]
    omega
  · rw [formatChars, List.countP_append]
    have h1 : List.countP (fun x => x != 0) ((s.map charIndex).take L) =
        ((s.map charIndex).take L).length := by
      rw [List.countP_eq_length]
      intro a ha
      obtain ⟨c, _, rfl⟩ := List.mem_map.mp (List.take_subset _ _ ha)
      simp [charIndex]
    have h2 : List.countP (fun x => x != 0)
        (List.replicate (L - s.length) 0) = 0 := by
      rw [List.countP_eq_zero]
      intro a ha
      simp [List.eq_of_mem_replicate ha]
    rw [h1, h2]
    simp [List.length_take]
    omega

/-- **C9**: the character formatter performs no normalization: the pair
`"101 fake st"` / `"101 Fake St"` differs only in letter case and the
pair `"101 fake st"` / `"101 fake st."` differs only in punctuation, yet
each pair receives distinct encodings (hence distinct inputs to the
embedding). -/
theorem C9_no_normalization :
    formatChars "101 fake st".toList max_len ≠
        formatChars "101 Fake St".toList max_len ∧
      formatChars "101 fake st".toList max_len ≠
        formatChars "101 fake st.".toList max_len := by
  constructor <;> decide

/-! ### Dot product, cosine similarity and the comparator -/

theorem dot_cons_cons (x y : ℝ) (v w : List ℝ) :
    dot (x :: v) (y :: w) = x * y + dot v w := by
  simp [dot]

theorem dot_self_nonneg (v : List ℝ) : 0 ≤ dot v v := by
  induction v with
  | nil => simp [dot]
  | cons x v ih =>
    rw [dot_cons_cons]
    nlinarith [mul_self_nonneg x]

theorem dot_comm (v w : List ℝ) : dot v w = dot w v := by
  induction v generalizing w with
  | nil => cases w <;> simp [dot]
  | cons x v ih =>
    cases w with
    | nil => simp [dot]
    | cons y w => rw [dot_cons_cons, dot_cons_cons, ih w, mul_comm]

/-- The edit-similarity score always lies on the 0–100 scale. -/
theorem fuzz_sim_range (a b : String) : 0 ≤ fuzz_sim a b ∧ fuzz_sim a b ≤ 100 := by
  unfold fuzz_sim
  by_cases hT : a.toList.length + b.toList.length = 0
  · rw [if_pos hT]
    norm_num
  · simp only [hT, if_false]
    have hTpos : (0 : ℚ) < ((a.toList.length + b.toList.length : Nat) : ℚ) := by
      have : 0 < a.toList.length + b.toList.length := Nat.pos_of_ne_zero hT
      exact_mod_cast this
    have hd : (editDist2 a.toList b.toList : ℚ) ≤
        ((a.toList.length + b.toList.length : Nat) : ℚ) := by
      exact_mod_cast editDist2_le_length_add a.toList b.toList
    set T : ℚ := ((a.toList.length + b.toList.length : Nat) : ℚ) with hTdef
    set d : ℚ := (editDist2 a.toList b.toList : ℚ) with hddef
    have hdnn : (0 : ℚ) ≤ d := by positivity
    have hq0 : (0 : ℚ) ≤ 100 * (T - d) / T := by
      apply div_nonneg _ (le_of_lt hTpos)
      nlinarith
    have hq1 : 100 * (T - d) / T ≤ 100 := by
      rw [div_le_iff₀ hTpos]
      nlinarith
    constructor
    · rw [round_eq]
      have h0 : (0 : ℤ) = ⌊(0 : ℚ)⌋ := by simp
      rw [h0]
      apply Int.floor_le_floor
      linarith
    · rw [round_eq]
      have h100 : ⌊(100 : ℚ) + 1 / 2⌋ = 100 := by
        norm_num [Int.floor_eq_iff]
      rw [← h100]
      apply Int.floor_le_floor
      linarith

/-- **C5**: the cosine similarity of an embedding produced by the encoder
with itself equals 1 exactly (whenever the embedding is not the zero
vector, i.e. its self-dot-product is nonzero). -/
theorem C5_self_cosine_one (F : List Nat → List ℝ) (s : String)
    (h : dot (emb F s) (emb F s) ≠ 0) :
    cosineSim (emb F s) (emb F s) = 1 := by
  unfold cosineSim
  rw [Real.mul_self_sqrt (dot_self_nonneg _)]
  exact div_self h

theorem C5_self_cosine_one_witness :
    cosineSim (emb (fun _ => [(1 : ℝ), 0]) "101 fake street")
        (emb (fun _ => [(1 : ℝ), 0]) "101 fake street") = 1 := by
  apply C5_self_cosine_one
  rw [show emb (fun _ => [(1 : ℝ), 0]) "101 fake street" = [(1 : ℝ), 0] from rfl]
  rw [dot_cons_cons]
  norm_num [dot]

/-- **C6**: inference is deterministic: with a fixed trained encoder `F`
(fixed weights), two applications of the embedding pipeline to the same
input string yield the same embedding. -/
theorem C6_deterministic (F : List Nat → List ℝ) (s1 s2 : String)
    (h : s1 = s2) : emb F s1 = emb F s2 := by
  rw [h]

theorem C6_deterministic_witness :
    emb (fun l => [(l.sum : ℝ)]) "101 fake st" =
      emb (fun l => [(l.sum : ℝ)]) "101 fake st" :=
  C6_deterministic (fun l => [(l.sum : ℝ)]) "101 fake st" "101 fake st" rfl

/-- **C7**: for every training triplet, the training loss equals
`max 0 ((1 - cos (F anchor) (F positive)) -
(1 - cos (F anchor) (F negative)) + margin)`, with the same shared
encoder `F` applied to all three strings. -/
theorem C7_triplet_loss (F : List Nat → List ℝ) (margin : ℝ)
    (a p n : String) :
    tripletLoss F margin a p n =
      max 0 ((1 - cosineSim (emb F a) (emb F p)) -
        (1 - cosineSim (emb F a) (emb F n)) + margin) := by
  simp [tripletLoss, embDist]

/-- **C3**: when the encoder produces unit-norm embeddings (as the spec's
reading of the learned score as a cosine similarity presumes), `compare`
reports exactly the rounded cosine similarity of the two embeddings
together with the reference edit-distance score, and the reference score
lies on the 0–100 scale. -/
theorem C3_compare_is_cosine (F : List Nat → List ℝ) (a b : String)
    (hF : ∀ s, dot (emb F s) (emb F s) = 1) :
    compare F a b = compareSpec F a b ∧
      0 ≤ (compare F a b).2 ∧ (compare F a b).2 ≤ 100 := by
  have hcos : cosineSim (emb F a) (emb F b) = dot (emb F a) (emb F b) := by
    unfold cosineSim
    rw [hF a, hF b, Real.sqrt_one, one_mul, div_one]
  refine ⟨?_, (fuzz_sim_range a b).1, (fuzz_sim_range a b).2⟩
  unfold compare compareSpec
  rw [hcos]

theorem C3_compare_is_cosine_witness :
    compare (fun _ => [(1 : ℝ), 0]) "101 fake street" "101 fake st" =
        compareSpec (fun _ => [(1 : ℝ), 0]) "101 fake street" "101 fake st" ∧
      0 ≤ (compare (fun _ => [(1 : ℝ), 0]) "101 fake street" "101 fake st").2 ∧
      (compare (fun _ => [(1 : ℝ), 0]) "101 fake street" "101 fake st").2 ≤ 100 := by
  apply C3_compare_is_cosine
  intro s
  rw [show emb (fun _ => [(1 : ℝ), 0]) s = [(1 : ℝ), 0] from rfl]
  rw [dot_cons_cons]
  norm_num [dot]

/-- **C10**: the comparator is symmetric: `compare a b` reports the same
learned score and the same reference edit score as `compare b a`, because
the embedding dot product and the edit-distance ratio are symmetric. -/
theorem C10_compare_symm (F : List Nat → List ℝ) (a b : String) :
    compare F a b = compare F b a := by
  unfold compare
  rw [dot_comm]
  have hfz : fuzz_sim a b = fuzz_sim b a := by
    unfold fuzz_sim
    rw [editDist2_symm, Nat.add_comm a.toList.length b.toList.length]
  rw [hfz]

/-! ### Pair sampler -/

theorem mem_of_headOpt_eq_some {α : Type} {l : List α} {a : α}
    (h : l.head? = some a) : a ∈ l := by
  cases l with
  | nil => simp at h
  | cons x t =>
    simp only [List.head?_cons, Option.some.injEq] at h
    rw [← h]
    exact List.mem_cons_self x t

theorem othersOf_subset (rows : List Row) (i : Nat) :
    ∀ r ∈ othersOf rows i, r ∈ rows := by
  intro r hr
  unfold othersOf at hr
  obtain ⟨⟨j, r2⟩, hmem, rfl⟩ := List.mem_map.mp hr
  have hj := (List.mem_filter.mp hmem).1
  exact List.get?_mem (List.mem_enum_iff_get?.mp hj)

theorem mem_othersOf (rows : List Row) (i j : Nat) (r : Row)
    (hj : (j, r) ∈ rows.enum) (hne : j ≠ i) : r ∈ othersOf rows i := by
  unfold othersOf
  exact List.mem_map.mpr ⟨(j, r), List.mem_filter.mpr ⟨hj, by simp [hne]⟩, rfl⟩

theorem positiveFor_spec (rows : List Row) (i : Nat) (p : Row)
    (h : positiveFor rows i = some p) :
    p.id = (rows.getD i defRow).id ∧ p ∈ othersOf rows i := by
  unfold positiveFor at h
  have hmem := mem_of_headOpt_eq_some h
  obtain ⟨⟨j, r⟩, hmem2, rfl⟩ := List.mem_map.mp hmem
  have hf := List.mem_filter.mp hmem2
  have hcond := hf.2
  simp only [Bool.and_eq_true, bne_iff_ne, ne_eq, beq_iff_eq] at hcond
  exact ⟨hcond.2, mem_othersOf rows i j r hf.1 hcond.1⟩

theorem negativesFor_subset (rows : List Row) (i N : Nat) :
    ∀ r ∈ negativesFor rows i N, r ∈ othersOf rows i := by
  intro r hr
  unfold negativesFor at hr
  by_cases h0 : (othersOf rows i).length = 0
  · simp [h0] at hr
  · simp only [h0, if_false] at hr
    obtain ⟨k, _, rfl⟩ := List.mem_map.mp hr
    have hlt : k % (othersOf rows i).length < (othersOf rows i).length :=
      Nat.mod_lt _ (Nat.pos_of_ne_zero h0)
    rw [List.getD_eq_getElem _ _ hlt]
    exact List.getElem_mem hlt

theorem negativesFor_length (rows : List Row) (i N : Nat)
    (h : 0 < (othersOf rows i).length) :
    (negativesFor rows i N).length = N := by
  unfold negativesFor
  simp [Nat.pos_iff_ne_zero.mp h]

theorem tripletsFor_none (rows : List Row) (N i : Nat)
    (h : positiveFor rows i = none) : tripletsFor rows N i = [] := by
  unfold tripletsFor
  rw [h]

theorem tripletsFor_mem (rows : List Row) (N i : Nat) (t : Triplet)
    (ht : t ∈ tripletsFor rows N i) :
    ∃ p, positiveFor rows i = some p ∧ t.anc = rows.getD i defRow ∧
      t.pos = p ∧ t.neg ∈ negativesFor rows i N := by
  unfold tripletsFor at ht
  split at ht
  · simp at ht
  next p hp =>
    obtain ⟨n, hn, rfl⟩ := List.mem_map.mp ht
    exact ⟨p, hp, rfl, rfl, hn⟩

theorem make_triplet_train_mem (rows : List Row) (N : Nat) (t : Triplet)
    (ht : t ∈ make_triplet_train rows N) :
    ∃ i, i < rows.length ∧ t ∈ tripletsFor rows N i := by
  unfold make_triplet_train at ht
  obtain ⟨l, hl, htl⟩ := List.mem_flatten.mp ht
  obtain ⟨i, hi, rfl⟩ := List.mem_map.mp hl
  exact ⟨i, List.mem_range.mp hi, htl⟩

/-- The notebook's situation in miniature: a table whose rows all carry
the single group id `0` (the notebook sets `df['id'] = 0`). -/
def twoRows : List Row :=
  [⟨"101 fake street", 0⟩, ⟨"101 fake st", 0⟩]

/-- **C2** (counterexample): it is not true that every triplet produced
by the sampler has its negative drawn from a group different from the
anchor's: on the notebook-style table `twoRows` (all group ids `0`), a
produced triplet has a negative with the anchor's own group id. -/
theorem C2_negative_group_counterexample :
    ¬ ∀ t ∈ make_triplet_train twoRows 1, t.neg.id ≠ t.anc.id := by
  decide

/-- **C2** (amended): for every triplet produced by the pair sampler,
anchor and positive share a group identifier, and the negative is drawn
from the rows of the table with no guarantee about its group; in the
notebook, where every record's group id is `0`, negatives therefore
share the anchor's group. -/
theorem C2_triplet_group_invariant (rows : List Row) (N : Nat)
    (t : Triplet) (ht : t ∈ make_triplet_train rows N) :
    t.pos.id = t.anc.id ∧ t.neg ∈ rows := by
  obtain ⟨i, hi, hti⟩ := make_triplet_train_mem rows N t ht
  obtain ⟨p, hp, hanc, hpos, hneg⟩ := tripletsFor_mem rows N i t hti
  have hspec := positiveFor_spec rows i p hp
  constructor
  · rw [hpos, hanc, hspec.1]
  · exact othersOf_subset rows i _ (negativesFor_subset rows i N _ hneg)

theorem C2_triplet_group_invariant_witness :
    (⟨⟨"101 fake street", 0⟩, ⟨"101 fake st", 0⟩,
        ⟨"101 fake st", 0⟩⟩ : Triplet).pos.id =
        (⟨⟨"101 fake street", 0⟩, ⟨"101 fake st", 0⟩,
          ⟨"101 fake st", 0⟩⟩ : Triplet).anc.id ∧
      (⟨⟨"101 fake street", 0⟩, ⟨"101 fake st", 0⟩,
        ⟨"101 fake st", 0⟩⟩ : Triplet).neg ∈ twoRows :=
  C2_triplet_group_invariant twoRows 1 _ (by decide)

/-- **C8**: for every table and target count `N`, an anchor with no other
same-group record is skipped (contributes no triplet); an anchor whose
positive lookup succeeds gets a positive that is another row sharing its
group id, and exactly `N` triplets, each carrying that anchor and
positive and a negative drawn from the other rows. -/
theorem C8_sampler_contract (rows : List Row) (N i : Nat) :
    (positiveFor rows i = none → tripletsFor rows N i = []) ∧
      ∀ p, positiveFor rows i = some p →
        p.id = (rows.getD i defRow).id ∧ p ∈ othersOf rows i ∧
          (tripletsFor rows N i).length = N ∧
          ∀ t ∈ tripletsFor rows N i,
            t.anc = rows.getD i defRow ∧ t.pos = p ∧
              t.neg ∈ othersOf rows i := by
  constructor
  · exact tripletsFor_none rows N i
  · intro p hp
    have hspec := positiveFor_spec rows i p hp
    have hlen : 0 < (othersOf rows i).length :=
      List.length_pos_of_mem hspec.2
    refine ⟨hspec.1, hspec.2, ?_, ?_⟩
    · unfold tripletsFor
      rw [hp, List.length_map]
      exact negativesFor_length rows i N hlen
    · intro t ht
      obtain ⟨p2, hp2, hanc, hpos, hneg⟩ := tripletsFor_mem rows N i t ht
      rw [hp] at hp2
      have hpp : p2 = p := Option.some_inj.mp hp2.symm
      exact ⟨hanc, hpp ▸ hpos,
        negativesFor_subset rows i N _ hneg⟩

theorem C8_sampler_contract_witness :
    (tripletsFor twoRows 1 0).length = 1 :=
  ((C8_sampler_contract twoRows 1 0).2 ⟨"101 fake st", 0⟩ (by decide)).2.2.1

end Wit
